import Mathlib

/-!
Verification of the `mpirion` MPI benchmarking crate.

This file gives a shallow embedding of the code generated by the four macros
in `src/lib.rs` (`mpirion_main!`, `mpirion_group!`, `mpirion_kernel!`,
`mpirion_bench!`) and proves properties of the embedded definitions.

Control flow is embedded as pure functions producing event traces (which MPI
collective is invoked, on which communicator, in which order) together with
the numeric values the code computes.  The floating-point average computed by
`mpirion_bench!` (`total_nanos as f64 / child_world_size as f64) as u64`) is
embedded by an exact model of IEEE-754 binary64 rounding (round to nearest,
ties to even) expressed over natural numbers, so that it can be evaluated by
the kernel on concrete inputs.
-/

namespace Mpirion

/-- The two communicators visible to a spawned worker: its own world
communicator (the intra-communicator of the spawned children), and the
communicator obtained by merging with the spawning process. -/
inductive Comm
  | world
  | merged
  deriving DecidableEq

/-- The `mpi::topology::MergeOrder` values used at the two merge call sites. -/
inductive MergeOrder
  | Low
  | High
  deriving DecidableEq

/-- One step of the generated code, as far as MPI communication and the
user-supplied callables are concerned. -/
inductive MpiOp
  | spawnChildren (count : ℕ)
  | mergeIntercomm (order : MergeOrder)
  | bcast (c : Comm)
  | barrier (c : Comm)
  | reduce (c : Comm)
  | callSetup (c : Comm)
  | callKernel (c : Comm)
  deriving DecidableEq

/-- Outcome of the function generated by `mpirion_group!`: either the
generated function panics (before invoking the benchmark target), or it
invokes the target, possibly after printing an advisory line to stderr. -/
inductive GroupOutcome
  | fatal (rank : ℕ)
  | ran (warned : Bool)
  deriving DecidableEq

/-- Embedding of the body of the function generated by `mpirion_group!`
(src/lib.rs lines 123-140): panic if `rank != 0`; print a warning (but
continue) if `world_size != 1`; then call the target. -/
def mpirion_group (rank world_size : ℕ) : GroupOutcome :=
  if rank ≠ 0 then GroupOutcome.fatal rank
  else if world_size ≠ 1 then GroupOutcome.ran true
  else GroupOutcome.ran false

/-- Whether a `GroupOutcome` is a fatal termination (the target was not
reached). -/
def GroupOutcome.isFatal : GroupOutcome → Bool
  | GroupOutcome.fatal _ => true
  | GroupOutcome.ran _ => false

/-- Outcome of the `main` function generated by `mpirion_main!`
(src/lib.rs lines 73-103). -/
inductive MainOutcome
  | fatalNoArgs
  | fatalNoKernelName
  | fatalUnknownKernel (name : String)
  | runChild (name : String)
  | runBench
  deriving DecidableEq

/-- Embedding of the `--child` dispatch `match` (src/lib.rs lines 79-84):
the match arms are tried in registration order, each comparing the
command-line token against the stringified kernel name; the wildcard arm
panics naming the unknown token. -/
def dispatch_child (kernels : List String) (k : String) : MainOutcome :=
  match kernels.find? (fun n => n == k) with
  | some n => MainOutcome.runChild n
  | none => MainOutcome.fatalUnknownKernel k

/-- Embedding of the `main` function generated by `mpirion_main!`:
`cli` is the list of command-line tokens after the executable path
(`std::env::args().nth(1)` is its head), `kernels` the list of registered
kernel identifiers in registration order. -/
def mpirion_main (kernels : List String) (cli : List String) : MainOutcome :=
  match cli with
  | [] => MainOutcome.fatalNoArgs
  | p :: rest =>
    if p = "--child" then
      match rest with
      | [] => MainOutcome.fatalNoKernelName
      | k :: _ => dispatch_child kernels k
    else MainOutcome.runBench

/-- The measurement loop of the bootstrap function generated by
`mpirion_kernel!` (src/lib.rs lines 189-200), embedded with an explicit
clock.  `sT i`, `bT i`, `kT i` are the wall-clock times consumed by the
`i`-th setup call, barrier wait and kernel call; `clock` is the current
wall-clock instant.  Per iteration the code calls setup, enters the barrier,
reads `Instant::now()`, calls the kernel, and adds `start.elapsed()` to the
running total.  Returns the emitted operations, the final clock, and the
accumulated `total_duration` in nanoseconds. -/
def kernel_loop (sT bT kT : ℕ → ℕ) : ℕ → ℕ → ℕ → List MpiOp × ℕ × ℕ
  | _, 0, clock => ([], clock, 0)
  | idx, c + 1, clock =>
    let afterSetup := clock + sT idx
    let afterBarrier := afterSetup + bT idx
    let start := afterBarrier
    let afterKernel := afterBarrier + kT idx
    let elapsed := afterKernel - start
    let rest := kernel_loop sT bT kT (idx + 1) c afterKernel
    (MpiOp.callSetup Comm.world :: MpiOp.barrier Comm.world ::
      MpiOp.callKernel Comm.world :: rest.1, rest.2.1, elapsed + rest.2.2)

/-- Embedding of the bootstrap function generated by `mpirion_kernel!`
(src/lib.rs lines 171-203): merge with the parent communicator using
`MergeOrder::High`, receive the iteration count by broadcast on the merged
communicator, optionally receive the input argument by broadcast on the
merged communicator (`hasArg` records whether the macro was instantiated
with an argument type), run the measurement loop, and contribute
`total_duration.as_nanos() as u64` to a sum-reduction on the merged
communicator.  Returns the operation trace and the contributed value. -/
def execute_kernel (hasArg : Bool) (sT bT kT : ℕ → ℕ) (iterations : ℕ) :
    List MpiOp × ℕ :=
  let body := kernel_loop sT bT kT 0 iterations 0
  (MpiOp.mergeIntercomm MergeOrder.High :: MpiOp.bcast Comm.merged ::
    ((if hasArg then [MpiOp.bcast Comm.merged] else []) ++
      body.1 ++ [MpiOp.reduce Comm.merged]),
    body.2.2 % 2 ^ 64)

/-- MPI `SystemOperation::sum()` reduction over `u64` contributions:
addition wraps modulo `2 ^ 64`. -/
def reduceSumU64 (contribs : List ℕ) : ℕ :=
  contribs.foldl (fun a x => (a + x) % 2 ^ 64) 0

end Mpirion

namespace Mpirion

/-! Exact model of the IEEE-754 binary64 arithmetic in `mpirion_bench!`.

The macro computes
`total_nanos = (total_nanos as f64 / child_world_size as f64) as u64`
(src/lib.rs line 280).  The model below expresses binary64 rounding
(round to nearest, ties to even, as performed both by the `u64 as f64`
conversion and by float division) over natural numbers.  A finite positive
binary64 value is represented by a pair `(m, k) : ℕ × ℤ` denoting `m * 2^k`.
The model is exact for the values arising here (magnitudes between `2^-95`
and `2^64`, far inside the normal range of binary64). -/

/-- Fuel-driven base-2 logarithm: `log2fuel f n = ⌊log₂ n⌋` whenever
`1 ≤ n < 2 ^ f`.  Structural recursion on the fuel keeps it kernel-reducible
on literals. -/
def log2fuel : ℕ → ℕ → ℕ
  | 0, _ => 0
  | f + 1, n => if n ≤ 1 then 0 else log2fuel f (n / 2) + 1

/-- Base-2 logarithm with enough fuel for every quantity in this model. -/
def natLog2m (n : ℕ) : ℕ := log2fuel 2000 n

/-- Round-to-nearest, ties-to-even of the fraction `p / q` (for `q ≥ 1`). -/
def rhe (p q : ℕ) : ℕ :=
  let n := p / q
  let r := p % q
  if 2 * r < q then n
  else if q < 2 * r then n + 1
  else if n % 2 = 0 then n else n + 1

/-- `⌊log₂ (a / b)⌋` for `a, b ≥ 1` (exact rational logarithm, not `⌊a/b⌋`). -/
def floorLog2Frac (a b : ℕ) : ℤ :=
  if b ≤ a then (natLog2m (a / b) : ℤ)
  else
    let L := natLog2m (b / a)
    if b = a * 2 ^ L then -(L : ℤ) else -(L : ℤ) - 1

/-- Correctly-rounded binary64 value of the fraction `a / b` (`b ≥ 1`),
returned as a dyadic pair `(m, k)` with value `m * 2^k`, where
`m = rhe (a / b * 2^(52 - e))` is the rounded 53-bit significand. -/
def roundFrac (a b : ℕ) : ℕ × ℤ :=
  if a = 0 then (0, 0)
  else
    let e := floorLog2Frac a b
    let k := e - 52
    if 0 ≤ k then (rhe a (b * 2 ^ k.toNat), k)
    else (rhe (a * 2 ^ (-k).toNat) b, k)

/-- Rust `total_nanos as f64`: convert a `u64` to binary64 by rounding. -/
def f64OfU64 (n : ℕ) : ℕ × ℤ := roundFrac n 1

/-- Binary64 division of a dyadic value by the exactly-representable
`child_world_size as f64` (an `i32`, hence exact): the correctly rounded
quotient. -/
def f64DivNat (v : ℕ × ℤ) (w : ℕ) : ℕ × ℤ :=
  if 0 ≤ v.2 then roundFrac (v.1 * 2 ^ v.2.toNat) w
  else roundFrac v.1 (w * 2 ^ (-v.2).toNat)

/-- Rust `as u64` applied to a nonnegative finite binary64 value: truncate
toward zero and saturate at `u64::MAX`. -/
def truncF64toU64 (v : ℕ × ℤ) : ℕ :=
  min (if 0 ≤ v.2 then v.1 * 2 ^ v.2.toNat else v.1 / 2 ^ (-v.2).toNat)
    (2 ^ 64 - 1)

/-- Embedding of src/lib.rs line 280:
`(total_nanos as f64 / child_world_size as f64) as u64`. -/
def averageNanos (total w : ℕ) : ℕ :=
  truncF64toU64 (f64DivNat (f64OfU64 total) w)

/-- Embedding of the closure generated by `mpirion_bench!`
(src/lib.rs lines 255-282).  `w` is the `world_size` macro parameter,
`remote` the size `remote_size()` reported for the spawned group,
`hasArg` whether an `arg` was supplied to the macro, and `workerNanos` the
values contributed by the workers to the final reduction.  The coordinator
spawns, checks `assert_eq!(child_world_size, world_size)`, merges with
`MergeOrder::Low`, broadcasts the iteration count (and the argument, if
any) on the merged communicator, performs the root side of the
sum-reduction contributing `[0u64]`, and divides the reduced total by
`child_world_size` in `f64`.  On assertion failure the trace stops at the
spawn and no sample is produced. -/
def mpirion_bench (w remote : ℕ) (hasArg : Bool) (workerNanos : List ℕ) :
    List MpiOp × Option ℕ :=
  if remote = w then
    (MpiOp.spawnChildren w :: MpiOp.mergeIntercomm MergeOrder.Low ::
      MpiOp.bcast Comm.merged ::
      ((if hasArg then [MpiOp.bcast Comm.merged] else []) ++
        [MpiOp.reduce Comm.merged]),
      some (averageNanos (reduceSumU64 (0 :: workerNanos)) remote))
  else ([MpiOp.spawnChildren w], none)

/-- The rank a process obtains in `inter_comm.merge(order)`
(`MPI_Intercomm_merge` semantics): the processes of the group that passed
`MergeOrder::Low` are numbered first, then the processes of the group that
passed `MergeOrder::High`, each side keeping its local order.  `localRank`
is the process's rank in its own group and `otherSize` the size of the
opposite group. -/
def mergeRank (order : MergeOrder) (localRank otherSize : ℕ) : ℕ :=
  match order with
  | MergeOrder.Low => localRank
  | MergeOrder.High => otherSize + localRank

/-- The collective operations an `MpiOp` trace performs on the merged
communicator (broadcasts, barriers and reductions whose communicator is the
merged one). -/
def mergedCollectives (tr : List MpiOp) : List MpiOp :=
  tr.filter fun op =>
    match op with
    | MpiOp.bcast Comm.merged => true
    | MpiOp.barrier Comm.merged => true
    | MpiOp.reduce Comm.merged => true
    | _ => false

/-- Whether an operation runs user code or the per-iteration barrier. -/
def isComputeOp : MpiOp → Bool
  | MpiOp.callSetup _ => true
  | MpiOp.callKernel _ => true
  | MpiOp.barrier _ => true
  | _ => false

/-- Whether an operation is a setup call. -/
def isSetupOp : MpiOp → Bool
  | MpiOp.callSetup _ => true
  | _ => false

/-- Whether an operation is a kernel call. -/
def isKernelOp : MpiOp → Bool
  | MpiOp.callKernel _ => true
  | _ => false

/-- Whether an operation is a barrier. -/
def isBarrierOp : MpiOp → Bool
  | MpiOp.barrier _ => true
  | _ => false

/-- The operations a worker may emit: the `MergeOrder::High` merge, merged
broadcasts and the merged reduction, and world-communicator setup, barrier
and kernel calls. -/
def workerOpOk : MpiOp → Bool
  | MpiOp.mergeIntercomm MergeOrder.High => true
  | MpiOp.bcast Comm.merged => true
  | MpiOp.reduce Comm.merged => true
  | MpiOp.callSetup Comm.world => true
  | MpiOp.barrier Comm.world => true
  | MpiOp.callKernel Comm.world => true
  | _ => false

/-- The per-iteration operations of the measurement loop, as a function of
the iteration count only (the trace side of `kernel_loop` does not depend on
the clock). -/
def iterOps : ℕ → List MpiOp
  | 0 => []
  | c + 1 => MpiOp.callSetup Comm.world :: MpiOp.barrier Comm.world ::
      MpiOp.callKernel Comm.world :: iterOps c

/-- The rational value denoted by a dyadic pair (used only in proofs). -/
def dval (v : ℕ × ℤ) : ℚ := (v.1 : ℚ) * 2 ^ v.2

end Mpirion

namespace Mpirion

/-! Lemmas about the binary64 model, leading to the characterisation of the
averaged sample computed at src/lib.rs line 280. -/

theorem log2fuel_spec (f : ℕ) : ∀ n, 1 ≤ n → n < 2 ^ f →
    2 ^ log2fuel f n ≤ n ∧ n < 2 ^ (log2fuel f n + 1) := by
  induction f with
  | zero => intro n h1 h2; omega
  | succ f ih =>
    intro n h1 h2
    by_cases hn : n ≤ 1
    · have : n = 1 := by omega
      subst this
      simp [log2fuel]
    · have hrec := ih (n / 2) (by omega) (by
        have : 2 ^ (f + 1) = 2 * 2 ^ f := by ring
        omega)
      rw [log2fuel]
      simp only [if_neg hn]
      have h1' : 2 ^ (log2fuel f (n / 2) + 1) = 2 * 2 ^ log2fuel f (n / 2) := by ring
      have h2' : 2 ^ (log2fuel f (n / 2) + 1 + 1) = 4 * 2 ^ log2fuel f (n / 2) := by ring
      omega

theorem natLog2m_spec (n : ℕ) (h1 : 1 ≤ n) (h2 : n < 2 ^ 2000) :
    2 ^ natLog2m n ≤ n ∧ n < 2 ^ (natLog2m n + 1) :=
  log2fuel_spec 2000 n h1 h2

theorem rhe_bounds (p q : ℕ) (hq : 1 ≤ q) :
    (p : ℚ) / q - 1 / 2 ≤ rhe p q ∧ (rhe p q : ℚ) ≤ (p : ℚ) / q + 1 / 2 := by
  have hq0 : (q : ℚ) ≠ 0 := by positivity
  have hqpos : (0 : ℚ) < q := by positivity
  have hmod := Nat.div_add_mod p q
  have hcast : (p : ℚ) = q * (p / q : ℕ) + (p % q : ℕ) := by
    exact_mod_cast congrArg (Nat.cast (R := ℚ)) hmod.symm
  have hdiv : (p : ℚ) / q = (p / q : ℕ) + (p % q : ℕ) / q := by
    rw [hcast]; field_simp; ring
  unfold rhe
  by_cases h1 : 2 * (p % q) < q
  · simp only [if_pos h1]
    constructor
    · rw [hdiv]
      have : ((p % q : ℕ) : ℚ) / q ≤ 1 / 2 := by
        rw [div_le_div_iff₀ hqpos (by norm_num)]
        have : (2 : ℚ) * (p % q : ℕ) ≤ q := by exact_mod_cast h1.le
        linarith
      linarith
    · rw [hdiv]
      have : (0 : ℚ) ≤ ((p % q : ℕ) : ℚ) / q := by positivity
      linarith
  · by_cases h2 : q < 2 * (p % q)
    · simp only [if_neg h1, if_pos h2]
      have hlow : (1 : ℚ) / 2 ≤ ((p % q : ℕ) : ℚ) / q := by
        rw [div_le_div_iff₀ (by norm_num) hqpos]
        have : (q : ℚ) ≤ 2 * (p % q : ℕ) := by exact_mod_cast h2.le
        linarith
      have hhigh : ((p % q : ℕ) : ℚ) / q < 1 := by
        rw [div_lt_one hqpos]
        exact_mod_cast Nat.mod_lt p (by omega)
      constructor
      · rw [hdiv]; push_cast; linarith
      · rw [hdiv]; push_cast; linarith
    · simp only [if_neg h1, if_neg h2]
      have heq : ((p % q : ℕ) : ℚ) / q = 1 / 2 := by
        have : 2 * (p % q) = q := by omega
        rw [div_eq_div_iff hq0 (by norm_num : (2:ℚ) ≠ 0)]
        have := congrArg (Nat.cast (R := ℚ)) this
        push_cast at this
        linarith
      by_cases h3 : (p / q) % 2 = 0
      · simp only [if_pos h3]
        constructor
        · rw [hdiv]; linarith
        · rw [hdiv]; linarith
      · simp only [if_neg h3]
        constructor
        · rw [hdiv]; push_cast; linarith
        · rw [hdiv]; push_cast; linarith

theorem rhe_exact (p q : ℕ) (hq : 1 ≤ q) (h : q ∣ p) : rhe p q = p / q := by
  unfold rhe
  have h0 : p % q = 0 := by
    obtain ⟨c, rfl⟩ := h
    exact Nat.mul_mod_right q c
  rw [h0]
  rw [if_pos (by omega : 2 * 0 < q)]

theorem zpow_natCast_q (n : ℕ) : (2 : ℚ) ^ (n : ℤ) = ((2 ^ n : ℕ) : ℚ) := by
  rw [zpow_natCast]; push_cast; ring

theorem zpow_natCast_q' (n : ℕ) : (2 : ℚ) ^ ((n : ℤ) + 1) = ((2 ^ (n + 1) : ℕ) : ℚ) := by
  rw [show ((n : ℤ) + 1) = (((n + 1 : ℕ) : ℤ)) by push_cast; ring, zpow_natCast]
  push_cast; ring

theorem floorLog2Frac_spec (a b : ℕ) (ha : 1 ≤ a) (hb : 1 ≤ b)
    (hfa : a < 2 ^ 2000) (hfb : b < 2 ^ 2000) :
    (2 : ℚ) ^ floorLog2Frac a b ≤ (a : ℚ) / b ∧
      (a : ℚ) / b < 2 ^ (floorLog2Frac a b + 1) := by
  have hb0 : (0 : ℚ) < b := by positivity
  have ha0 : (0 : ℚ) < a := by positivity
  unfold floorLog2Frac
  by_cases hba : b ≤ a
  · simp only [if_pos hba]
    have h1 : 1 ≤ a / b := (Nat.one_le_div_iff (by omega)).mpr hba
    have h2 : a / b < 2 ^ 2000 := lt_of_le_of_lt (Nat.div_le_self a b) hfa
    obtain ⟨hlo, hhi⟩ := natLog2m_spec (a / b) h1 h2
    set E := natLog2m (a / b) with hE
    constructor
    · rw [zpow_natCast_q, le_div_iff₀ hb0]
      have h3 : 2 ^ E * b ≤ a := by
        have h4 : 2 ^ E * b ≤ a / b * b := Nat.mul_le_mul_right b hlo
        have h5 := Nat.div_mul_le_self a b
        omega
      exact_mod_cast h3
    · rw [zpow_natCast_q']
      have hq : (a : ℚ) / b < ((a / b : ℕ) : ℚ) + 1 := by
        rw [div_lt_iff₀ hb0]
        have hmod := Nat.div_add_mod a b
        have hmlt : a % b < b := Nat.mod_lt a (by omega)
        have hc : (a : ℚ) = b * ((a / b : ℕ) : ℚ) + ((a % b : ℕ) : ℚ) := by
          exact_mod_cast congrArg (Nat.cast (R := ℚ)) hmod.symm
        have hc2 : ((a % b : ℕ) : ℚ) < b := by exact_mod_cast hmlt
        rw [hc]
        ring_nf
        linarith [hc2]
      have h4 : ((a / b : ℕ) : ℚ) + 1 ≤ ((2 ^ (E + 1) : ℕ) : ℚ) := by
        exact_mod_cast Nat.succ_le_of_lt hhi
      linarith
  · simp only [if_neg hba]
    push_neg at hba
    have h1 : 1 ≤ b / a := (Nat.one_le_div_iff (by omega)).mpr hba.le
    have h2 : b / a < 2 ^ 2000 := lt_of_le_of_lt (Nat.div_le_self b a) hfb
    obtain ⟨hlo, hhi⟩ := natLog2m_spec (b / a) h1 h2
    set L := natLog2m (b / a) with hL
    have hlow : a * 2 ^ L ≤ b := by
      have h3 := (Nat.le_div_iff_mul_le (by omega : 0 < a)).mp hlo
      calc a * 2 ^ L = 2 ^ L * a := Nat.mul_comm _ _
        _ ≤ b := h3
    have hup : b < a * 2 ^ (L + 1) := by
      have hmod := Nat.div_add_mod b a
      have hmlt : b % a < a := Nat.mod_lt b (by omega)
      have h3 : b / a ≤ 2 ^ (L + 1) - 1 := by omega
      have h5 : a * (b / a) ≤ a * (2 ^ (L + 1) - 1) := Nat.mul_le_mul_left a h3
      have h6 : (1:ℕ) ≤ 2 ^ (L + 1) := Nat.one_le_two_pow
      have key : a * (2 ^ (L + 1) - 1) + a = a * 2 ^ (L + 1) := by
        calc a * (2 ^ (L + 1) - 1) + a = a * (2 ^ (L + 1) - 1 + 1) := by ring
          _ = a * 2 ^ (L + 1) := by rw [Nat.sub_add_cancel h6]
      omega
    by_cases hpow : b = a * 2 ^ L
    · simp only [if_pos hpow]
      have hx : (a : ℚ) / b = 2 ^ (-(L : ℤ)) := by
        rw [hpow, zpow_neg, zpow_natCast]
        push_cast
        field_simp
      rw [hx]
      refine ⟨le_refl _, ?_⟩
      apply zpow_lt_zpow_right₀ (by norm_num : (1:ℚ) < 2)
      omega
    · simp only [if_neg hpow]
      have hlow' : a * 2 ^ L < b := by omega
      have hupQ : (b : ℚ) < a * ((2 ^ (L + 1) : ℕ) : ℚ) := by
        exact_mod_cast hup
      have hlowQ : (a : ℚ) * ((2 ^ L : ℕ) : ℚ) < b := by
        exact_mod_cast hlow'
      constructor
      · rw [show (-(L:ℤ) - 1) = -((L:ℤ) + 1) by ring, zpow_neg, zpow_natCast_q',
          inv_eq_one_div, div_le_div_iff₀ (by positivity) hb0]
        linarith
      · rw [show (-(L:ℤ) - 1 + 1) = -(L:ℤ) by ring, zpow_neg, zpow_natCast_q,
          inv_eq_one_div, div_lt_div_iff₀ hb0 (by positivity)]
        linarith

theorem roundFrac_bounds (a b : ℕ) (ha : 1 ≤ a) (hb : 1 ≤ b) :
    (a : ℚ) / b - 2 ^ (floorLog2Frac a b - 53) ≤ dval (roundFrac a b) ∧
      dval (roundFrac a b) ≤ (a : ℚ) / b + 2 ^ (floorLog2Frac a b - 53) := by
  have ha0 : a ≠ 0 := by omega
  have hb0 : (0 : ℚ) < b := by positivity
  set e := floorLog2Frac a b with he
  set k := e - 52 with hk
  have hhalf : (2 : ℚ) ^ (e - 53) = 2 ^ k * (1 / 2) := by
    rw [show e - 53 = k - 1 by omega, zpow_sub_one₀ (by norm_num : (2:ℚ) ≠ 0)]
    ring
  by_cases hk0 : 0 ≤ k
  · have hq' : ((b * 2 ^ k.toNat : ℕ) : ℚ) = b * 2 ^ k := by
      push_cast
      rw [← zpow_natCast (2 : ℚ) k.toNat, Int.toNat_of_nonneg hk0]
    have hq1 : 1 ≤ b * 2 ^ k.toNat := Nat.one_le_iff_ne_zero.mpr (by positivity)
    obtain ⟨hlo, hhi⟩ := rhe_bounds a (b * 2 ^ k.toNat) hq1
    have hrw : (a : ℚ) / ((b * 2 ^ k.toNat : ℕ) : ℚ) * 2 ^ k = (a : ℚ) / b := by
      rw [hq']
      have h2k : (2 : ℚ) ^ k ≠ 0 := zpow_ne_zero _ (by norm_num)
      field_simp
      ring
    have hkpos : (0 : ℚ) < 2 ^ k := zpow_pos (by norm_num) _
    unfold roundFrac
    rw [if_neg ha0]
    simp only [← he, ← hk, if_pos hk0]
    unfold dval
    simp only
    constructor
    · have := (mul_le_mul_right hkpos).mpr hlo
      rw [sub_mul, hrw] at this
      rw [hhalf]
      linarith
    · have := (mul_le_mul_right hkpos).mpr hhi
      rw [add_mul, hrw] at this
      rw [hhalf]
      linarith
  · have hknn : 0 ≤ -k := by omega
    have hp' : ((a * 2 ^ (-k).toNat : ℕ) : ℚ) = a * 2 ^ (-k) := by
      push_cast
      rw [← zpow_natCast (2 : ℚ) (-k).toNat, Int.toNat_of_nonneg hknn]
    obtain ⟨hlo, hhi⟩ := rhe_bounds (a * 2 ^ (-k).toNat) b hb
    have hrw : ((a * 2 ^ (-k).toNat : ℕ) : ℚ) / b * 2 ^ k = (a : ℚ) / b := by
      have hmul : (2 : ℚ) ^ (-k) * 2 ^ k = 1 := by
        rw [← zpow_add₀ (by norm_num : (2:ℚ) ≠ 0)]
        norm_num
      rw [hp', div_mul_eq_mul_div, mul_assoc, hmul, mul_one]
    have hkpos : (0 : ℚ) < 2 ^ k := zpow_pos (by norm_num) _
    unfold roundFrac
    rw [if_neg ha0]
    simp only [← he, ← hk, if_neg hk0]
    unfold dval
    simp only
    constructor
    · have := (mul_le_mul_right hkpos).mpr hlo
      rw [sub_mul, hrw] at this
      rw [hhalf]
      linarith
    · have := (mul_le_mul_right hkpos).mpr hhi
      rw [add_mul, hrw] at this
      rw [hhalf]
      linarith

theorem roundFrac_snd (a b : ℕ) (ha : a ≠ 0) :
    (roundFrac a b).2 = floorLog2Frac a b - 52 := by
  unfold roundFrac
  rw [if_neg ha]
  by_cases hk0 : 0 ≤ floorLog2Frac a b - 52
  · simp only [if_pos hk0]
  · simp only [if_neg hk0]

theorem zpow_lt_53 (e : ℤ) (N : ℕ) (h1 : (2:ℚ) ^ e ≤ N) (h2 : N < 2 ^ 53) : e ≤ 52 := by
  have hlt : (2:ℚ) ^ e < 2 ^ (((53 : ℕ)) : ℤ) := by
    calc (2:ℚ) ^ e ≤ N := h1
      _ < ((2 ^ 53 : ℕ) : ℚ) := by exact_mod_cast h2
      _ = 2 ^ (((53 : ℕ)) : ℤ) := (zpow_natCast_q 53).symm
  have := (zpow_lt_zpow_iff_right₀ (by norm_num : (1:ℚ) < 2)).mp hlt
  omega

theorem zpow_ge_0 (e : ℤ) (N : ℕ) (h1 : 1 ≤ N) (h2 : (N : ℚ) < 2 ^ (e + 1)) : 0 ≤ e := by
  have hlt : (2:ℚ) ^ (0 : ℤ) < 2 ^ (e + 1) := by
    calc (2:ℚ) ^ (0 : ℤ) = 1 := by norm_num
      _ ≤ N := by exact_mod_cast h1
      _ < 2 ^ (e + 1) := h2
  have := (zpow_lt_zpow_iff_right₀ (by norm_num : (1:ℚ) < 2)).mp hlt
  omega

theorem roundFrac_exact (a b N : ℕ) (hb : 1 ≤ b) (hN1 : 1 ≤ N) (hN53 : N < 2 ^ 53)
    (hfa : a < 2 ^ 2000) (hfb : b < 2 ^ 2000) (hval : (a : ℚ) / b = N) :
    dval (roundFrac a b) = N ∧ truncF64toU64 (roundFrac a b) = N := by
  have hb0 : (0 : ℚ) < b := by positivity
  have ha : 1 ≤ a := by
    by_contra h
    have : a = 0 := by omega
    subst this
    rw [Nat.cast_zero, zero_div] at hval
    have : (1 : ℚ) ≤ N := by exact_mod_cast hN1
    linarith [hval.symm ▸ this]
  have ha0 : a ≠ 0 := by omega
  have hab : a = N * b := by
    have : (a : ℚ) = N * b := by
      field_simp at hval
      exact_mod_cast hval
    exact_mod_cast this
  obtain ⟨hlo, hhi⟩ := floorLog2Frac_spec a b ha hb hfa hfb
  rw [hval] at hlo hhi
  set e := floorLog2Frac a b with he
  have he52 : e ≤ 52 := zpow_lt_53 e N hlo hN53
  have he0 : 0 ≤ e := zpow_ge_0 e N hN1 hhi
  set k := e - 52 with hk
  have hN64 : N ≤ 2 ^ 64 - 1 := by
    have : (2:ℕ) ^ 53 ≤ 2 ^ 64 := Nat.pow_le_pow_right (by omega) (by omega)
    omega
  unfold roundFrac truncF64toU64
  rw [if_neg ha0]
  simp only [← he, ← hk]
  by_cases hk0 : 0 ≤ k
  · have hkz : k = 0 := by omega
    simp only [if_pos hk0, hkz]
    have hdvd : b ∣ a := Dvd.intro_left N hab.symm
    have hrhe : rhe a (b * 2 ^ (0:ℤ).toNat) = N := by
      have : b * 2 ^ (0:ℤ).toNat = b := by norm_num
      rw [this, rhe_exact a b hb hdvd, hab, Nat.mul_div_cancel N (by omega : 0 < b)]
    rw [hrhe]
    constructor
    · unfold dval
      norm_num
    · simp only [if_pos (le_refl (0:ℤ))]
      have h : N * 2 ^ (0:ℤ).toNat = N := by norm_num
      rw [h]
      exact Nat.min_eq_left hN64
  · have hj : ((2 ^ (-k).toNat : ℕ) : ℚ) = 2 ^ (-k) := by
      push_cast
      rw [← zpow_natCast (2 : ℚ) (-k).toNat, Int.toNat_of_nonneg (by omega : (0:ℤ) ≤ -k)]
    have hdvd : b ∣ a * 2 ^ (-k).toNat := Dvd.dvd.mul_right (Dvd.intro_left N hab.symm) _
    have hrhe : rhe (a * 2 ^ (-k).toNat) b = N * 2 ^ (-k).toNat := by
      have hfact : a * 2 ^ (-k).toNat = b * (N * 2 ^ (-k).toNat) := by rw [hab]; ring
      rw [rhe_exact _ b hb hdvd, hfact, Nat.mul_div_cancel_left _ (by omega : 0 < b)]
    simp only [if_neg hk0]
    rw [hrhe]
    constructor
    · show ((N * 2 ^ (-k).toNat : ℕ) : ℚ) * 2 ^ k = (N : ℚ)
      push_cast
      rw [← zpow_natCast (2 : ℚ) (-k).toNat, Int.toNat_of_nonneg (by omega : (0:ℤ) ≤ -k)]
      rw [mul_assoc, ← zpow_add₀ (by norm_num : (2:ℚ) ≠ 0)]
      norm_num
    · have hc : N * 2 ^ (-k).toNat / 2 ^ (-k).toNat = N :=
        Nat.mul_div_cancel N (by positivity)
      rw [hc]
      exact Nat.min_eq_left hN64

theorem truncF64_eq (m : ℕ) (k : ℤ) (q : ℕ) (hq64 : q ≤ 2 ^ 64 - 1)
    (h1 : (q : ℚ) ≤ dval (m, k)) (h2 : dval (m, k) < q + 1) :
    truncF64toU64 (m, k) = q := by
  unfold truncF64toU64
  by_cases hk0 : 0 ≤ k
  · simp only [if_pos hk0]
    have hd : dval (m, k) = ((m * 2 ^ k.toNat : ℕ) : ℚ) := by
      unfold dval
      push_cast
      rw [← zpow_natCast (2 : ℚ) k.toNat, Int.toNat_of_nonneg hk0]
    rw [hd] at h1 h2
    have e1 : q ≤ m * 2 ^ k.toNat := by exact_mod_cast h1
    have e2 : m * 2 ^ k.toNat < q + 1 := by exact_mod_cast h2
    omega
  · simp only [if_neg hk0]
    have hj : ((2 ^ (-k).toNat : ℕ) : ℚ) = 2 ^ (-k) := by
      push_cast
      rw [← zpow_natCast (2 : ℚ) (-k).toNat, Int.toNat_of_nonneg (by omega : (0:ℤ) ≤ -k)]
    have hjpos : (0:ℕ) < 2 ^ (-k).toNat := by positivity
    have hjposQ : (0:ℚ) < ((2 ^ (-k).toNat : ℕ) : ℚ) := by positivity
    have hd : dval (m, k) = (m : ℚ) / ((2 ^ (-k).toNat : ℕ) : ℚ) := by
      unfold dval
      rw [hj, eq_div_iff (by positivity), mul_assoc,
        ← zpow_add₀ (by norm_num : (2:ℚ) ≠ 0)]
      norm_num
    rw [hd] at h1 h2
    rw [le_div_iff₀ hjposQ] at h1
    rw [div_lt_iff₀ hjposQ] at h2
    have e1 : q * 2 ^ (-k).toNat ≤ m := by exact_mod_cast h1
    have e2 : m < (q + 1) * 2 ^ (-k).toNat := by exact_mod_cast h2
    have d1 : q ≤ m / 2 ^ (-k).toNat := (Nat.le_div_iff_mul_le hjpos).mpr e1
    have d2 : m / 2 ^ (-k).toNat < q + 1 := (Nat.div_lt_iff_lt_mul hjpos).mpr e2
    omega

theorem avg_core (a b T W : ℕ) (ha : 1 ≤ a) (hb : 1 ≤ b) (hT : 1 ≤ T)
    (hT53 : T < 2 ^ 53) (hW : 1 ≤ W) (hfa : a < 2 ^ 2000) (hfb : b < 2 ^ 2000)
    (hval : (a : ℚ) / b = (T : ℚ) / W) :
    truncF64toU64 (roundFrac a b) = T / W := by
  have hb0 : (0 : ℚ) < b := by positivity
  have hW0 : (0 : ℚ) < W := by positivity
  set q := T / W with hq
  set r := T % W with hr
  have hmod : W * q + r = T := Nat.div_add_mod T W
  have hrW : r < W := Nat.mod_lt T (by omega)
  have hq53 : q < 2 ^ 53 := lt_of_le_of_lt (Nat.div_le_self T W) hT53
  have hq64 : q ≤ 2 ^ 64 - 1 := by
    have : (2:ℕ) ^ 53 ≤ 2 ^ 64 := Nat.pow_le_pow_right (by omega) (by omega)
    omega
  by_cases hr0 : r = 0
  · -- exact division: T / W is an integer and the rounding is exact
    have hq1 : 1 ≤ q := by
      rcases Nat.eq_zero_or_pos q with h0 | h0
      · exfalso
        rw [h0, Nat.mul_zero] at hmod
        omega
      · exact h0
    have hvq : (a : ℚ) / b = (q : ℚ) := by
      rw [hval]
      have : (T : ℚ) = W * q := by
        exact_mod_cast congrArg (Nat.cast (R := ℚ)) (by omega : T = W * q)
      rw [this]
      field_simp
    exact (roundFrac_exact a b q hb hq1 hq53 hfa hfb hvq).2
  · -- inexact division: the rounded quotient stays within (q, q + 1)
    obtain ⟨hlo, hhi⟩ := floorLog2Frac_spec a b ha hb hfa hfb
    set e := floorLog2Frac a b with he
    obtain ⟨hblo, hbhi⟩ := roundFrac_bounds a b ha hb
    rw [← he] at hblo hbhi
    rw [hval] at hlo hhi hblo hbhi
    -- W * 2 ^ e ≤ T < 2 ^ 53, hence 2 ^ (e - 53) < 1 / W
    have hWe : (W : ℚ) * 2 ^ e ≤ T := by
      rw [le_div_iff₀ hW0] at hlo
      linarith [hlo]
    have hT53Q : (T : ℚ) < 2 ^ ((53:ℕ) : ℤ) := by
      rw [zpow_natCast_q]
      exact_mod_cast hT53
    have hsmall : (2 : ℚ) ^ (e - 53) < 1 / W := by
      rw [div_eq_mul_inv, one_mul, lt_inv_comm₀ (by positivity) hW0]
      have h1 : (W : ℚ) < 2 ^ ((53:ℕ):ℤ) / 2 ^ e := by
        rw [lt_div_iff₀ (by positivity : (0:ℚ) < 2 ^ e)]
        linarith
      have h2 : ((2:ℚ) ^ ((53:ℕ):ℤ)) / 2 ^ e = (2 ^ (e - 53))⁻¹ := by
        rw [← zpow_neg, ← zpow_sub₀ (by norm_num : (2:ℚ) ≠ 0)]
        norm_num
      rw [h2] at h1
      exact h1
    have hcast : (T : ℚ) = W * q + r := by
      exact_mod_cast congrArg (Nat.cast (R := ℚ)) hmod.symm
    have hr1 : (1 : ℚ) ≤ r := by
      have : 1 ≤ r := by omega
      exact_mod_cast this
    have hrWQ : (r : ℚ) < W := by exact_mod_cast hrW
    have hsW : (2:ℚ) ^ (e - 53) * W < 1 := by
      have h := (mul_lt_mul_right hW0).mpr hsmall
      rwa [one_div, inv_mul_cancel₀ (ne_of_gt hW0)] at h
    have hrW1 : (r : ℚ) + 1 ≤ W := by exact_mod_cast hrW
    have hup : dval (roundFrac a b) < q + 1 := by
      have key : (T : ℚ) / W + 2 ^ (e - 53) < q + 1 := by
        rw [div_add' _ _ _ (ne_of_gt hW0), div_lt_iff₀ hW0, hcast]
        have expand : ((q:ℚ) + 1) * W = W * q + W := by ring
        rw [expand]
        linarith
      linarith
    have hdown : (q : ℚ) ≤ dval (roundFrac a b) := by
      have key : (q : ℚ) + 2 ^ (e - 53) ≤ (T : ℚ) / W := by
        rw [le_div_iff₀ hW0, hcast]
        have expand : ((q:ℚ) + 2 ^ (e - 53)) * W = W * q + 2 ^ (e - 53) * W := by ring
        rw [expand]
        linarith
      linarith
    exact truncF64_eq (roundFrac a b).1 (roundFrac a b).2 q hq64
      (by rw [← Prod.mk.eta (p := roundFrac a b)] at hdown ⊢; exact hdown)
      (by rw [← Prod.mk.eta (p := roundFrac a b)] at hup ⊢; exact hup)

theorem averageNanos_eq_div (T W : ℕ) (hT53 : T < 2 ^ 53) (hW : 1 ≤ W)
    (hW31 : W ≤ 2 ^ 31) : averageNanos T W = T / W := by
  rcases Nat.eq_zero_or_pos T with hT0 | hT1
  · subst hT0
    simp [averageNanos, f64OfU64, f64DivNat, roundFrac, truncF64toU64, Nat.zero_div]
  · have hpow : (2:ℕ) ^ 53 < 2 ^ 2000 := Nat.pow_lt_pow_right (by omega) (by omega)
    have hfT : T < 2 ^ 2000 := lt_trans hT53 hpow
    have hone : (1:ℕ) < 2 ^ 2000 := Nat.one_lt_pow (by omega) (by omega)
    have hvalT : (T : ℚ) / (1:ℕ) = (T : ℚ) := by norm_num
    have hdv : dval (roundFrac T 1) = T :=
      (roundFrac_exact T 1 T (le_refl 1) hT1 hT53 hfT hone hvalT).1
    have hT0 : T ≠ 0 := by omega
    have hsnd : (roundFrac T 1).2 = floorLog2Frac T 1 - 52 := roundFrac_snd T 1 hT0
    have hflz : 0 ≤ floorLog2Frac T 1 := by
      unfold floorLog2Frac
      rw [if_pos (by omega : 1 ≤ T)]
      exact Int.natCast_nonneg _
    have hsub : -52 ≤ (roundFrac T 1).2 := by omega
    unfold averageNanos f64OfU64 f64DivNat
    set v := roundFrac T 1 with hv
    by_cases hk : 0 ≤ v.2
    · simp only [if_pos hk]
      have hveq : ((v.1 * 2 ^ v.2.toNat : ℕ) : ℚ) = (T : ℚ) := by
        push_cast
        rw [← zpow_natCast (2:ℚ) v.2.toNat, Int.toNat_of_nonneg hk]
        exact hdv
      have haT : v.1 * 2 ^ v.2.toNat = T := by exact_mod_cast hveq
      rw [haT]
      exact avg_core T W T W hT1 hW hT1 hT53 hW hfT
        (lt_of_le_of_lt hW31 (Nat.pow_lt_pow_right (by omega) (by omega))) rfl
    · simp only [if_neg hk]
      have hj : ((2 ^ (-v.2).toNat : ℕ) : ℚ) = 2 ^ (-v.2) := by
        push_cast
        rw [← zpow_natCast (2:ℚ) (-v.2).toNat, Int.toNat_of_nonneg (by omega : (0:ℤ) ≤ -v.2)]
      have hm : (v.1 : ℚ) = T * ((2 ^ (-v.2).toNat : ℕ) : ℚ) := by
        rw [hj]
        unfold dval at hdv
        have h2k : (2:ℚ) ^ v.2 ≠ 0 := zpow_ne_zero _ (by norm_num)
        have hmul : (2:ℚ) ^ v.2 * 2 ^ (-v.2) = 1 := by
          rw [← zpow_add₀ (by norm_num : (2:ℚ) ≠ 0)]
          norm_num
        calc (v.1 : ℚ) = v.1 * (2 ^ v.2 * 2 ^ (-v.2)) := by rw [hmul]; ring
          _ = (v.1 * 2 ^ v.2) * 2 ^ (-v.2) := by ring
          _ = T * 2 ^ (-v.2) := by rw [hdv]
      have hmN : v.1 = T * 2 ^ (-v.2).toNat := by exact_mod_cast hm
      have hjle : (-v.2).toNat ≤ 52 := by omega
      have hj52 : (2:ℕ) ^ (-v.2).toNat ≤ 2 ^ 52 := Nat.pow_le_pow_right (by omega) hjle
      have ha' : 1 ≤ v.1 := by
        rw [hmN]
        have : (0:ℕ) < 2 ^ (-v.2).toNat := by positivity
        exact Nat.one_le_iff_ne_zero.mpr (by positivity)
      have hb' : 1 ≤ W * 2 ^ (-v.2).toNat := by
        have : (0:ℕ) < 2 ^ (-v.2).toNat := by positivity
        exact Nat.one_le_iff_ne_zero.mpr (by positivity)
      have hfa' : v.1 < 2 ^ 2000 := by
        rw [hmN]
        calc T * 2 ^ (-v.2).toNat ≤ 2 ^ 53 * 2 ^ 52 := by
              exact Nat.mul_le_mul hT53.le hj52
          _ = 2 ^ 105 := by norm_num
          _ < 2 ^ 2000 := Nat.pow_lt_pow_right (by omega) (by omega)
      have hfb' : W * 2 ^ (-v.2).toNat < 2 ^ 2000 := by
        calc W * 2 ^ (-v.2).toNat ≤ 2 ^ 31 * 2 ^ 52 := Nat.mul_le_mul hW31 hj52
          _ = 2 ^ 83 := by norm_num
          _ < 2 ^ 2000 := Nat.pow_lt_pow_right (by omega) (by omega)
      have hval' : (v.1 : ℚ) / ((W * 2 ^ (-v.2).toNat : ℕ) : ℚ) = (T : ℚ) / W := by
        rw [hm]
        have hjpos : (0:ℚ) < (2:ℚ) ^ ((-v.2).toNat : ℕ) := by positivity
        have hWpos : (0:ℚ) < (W:ℚ) := by positivity
        rw [div_eq_div_iff (by positivity) (by positivity)]
        push_cast
        ring
      exact avg_core v.1 (W * 2 ^ (-v.2).toNat) T W ha' hb' hT1 hT53 hW hfa' hfb' hval'

end Mpirion

namespace Mpirion

/-! Lemmas about the traces emitted by the embedded worker and coordinator. -/

theorem kernel_loop_fst (sT bT kT : ℕ → ℕ) :
    ∀ (c i t : ℕ), (kernel_loop sT bT kT i c t).1 = iterOps c := by
  intro c
  induction c with
  | zero => intro i t; rfl
  | succ c ih =>
    intro i t
    simp only [kernel_loop, iterOps]
    rw [ih]

theorem iterOps_mem (c : ℕ) :
    ∀ op ∈ iterOps c, op = MpiOp.callSetup Comm.world ∨
      op = MpiOp.barrier Comm.world ∨ op = MpiOp.callKernel Comm.world := by
  induction c with
  | zero => intro op h; cases h
  | succ c ih =>
    intro op h
    simp only [iterOps, List.mem_cons] at h
    rcases h with h | h | h | h
    · exact Or.inl h
    · exact Or.inr (Or.inl h)
    · exact Or.inr (Or.inr h)
    · exact ih op h

theorem iterOps_countP_setup (c : ℕ) : (iterOps c).countP isSetupOp = c := by
  induction c with
  | zero => rfl
  | succ c ih =>
    simp only [iterOps, List.countP_cons, ih, isSetupOp]
    rfl

theorem iterOps_countP_kernel (c : ℕ) : (iterOps c).countP isKernelOp = c := by
  induction c with
  | zero => rfl
  | succ c ih =>
    simp only [iterOps, List.countP_cons, ih, isKernelOp]
    rfl

theorem iterOps_countP_barrier (c : ℕ) : (iterOps c).countP isBarrierOp = c := by
  induction c with
  | zero => rfl
  | succ c ih =>
    simp only [iterOps, List.countP_cons, ih, isBarrierOp]
    rfl

theorem iterOps_merged (c : ℕ) : mergedCollectives (iterOps c) = [] := by
  induction c with
  | zero => rfl
  | succ c ih =>
    simp only [iterOps, mergedCollectives, List.filter_cons] at ih ⊢
    exact ih

theorem iterOps_all_worker (c : ℕ) : (iterOps c).all workerOpOk = true := by
  induction c with
  | zero => rfl
  | succ c ih =>
    simp only [iterOps, List.all_cons, ih, workerOpOk]
    rfl

theorem kernel_loop_duration (sT bT kT : ℕ → ℕ) :
    ∀ (c i t : ℕ), (kernel_loop sT bT kT i c t).2.2 =
      ∑ j ∈ Finset.range c, kT (i + j) := by
  intro c
  induction c with
  | zero => intro i t; simp [kernel_loop]
  | succ c ih =>
    intro i t
    simp only [kernel_loop]
    rw [ih]
    rw [Finset.sum_range_succ']
    have hshift : ∀ j, kT (i + (j + 1)) = kT (i + 1 + j) := by
      intro j
      congr 1
      omega
    rw [Finset.sum_congr rfl (fun j _ => hshift j)]
    simp only [Nat.add_zero]
    omega

theorem reduceSumU64_eq (l : List ℕ) : reduceSumU64 l = l.sum % 2 ^ 64 := by
  have key : ∀ (l : List ℕ) (a : ℕ),
      List.foldl (fun a x => (a + x) % 2 ^ 64) (a % 2 ^ 64) l = (a + l.sum) % 2 ^ 64 := by
    intro l
    induction l with
    | nil => intro a; simp
    | cons x xs ih =>
      intro a
      simp only [List.foldl_cons, List.sum_cons]
      rw [Nat.mod_add_mod, ih (a + x)]
      congr 1
      omega
  have h0 : (0 : ℕ) = 0 % 2 ^ 64 := by norm_num
  unfold reduceSumU64
  rw [h0, key l 0]
  simp

theorem averageNanos_zero (w : ℕ) : averageNanos 0 w = 0 := by
  simp [averageNanos, f64OfU64, f64DivNat, roundFrac, truncF64toU64]

end Mpirion

namespace Mpirion

/-- C1 (counterexample): the claim "rank 0 with world size 2 terminates
fatally" is false — `mpirion_group!` only prints an advisory line for a
world size other than 1 and still invokes the benchmark target. -/
theorem claim1_counterexample :
    ¬ (((0 : ℕ) ≠ 0 ∨ (2 : ℕ) ≠ 1) → (mpirion_group 0 2).isFatal = true) := by
  decide

/-- C1 (amended): the function generated by `mpirion_group!` fails fast
(before invoking the benchmark target, hence before any spawn or
collective) exactly when its world rank is not 0; at rank 0 it always
proceeds to the target, emitting a stderr warning if and only if the world
size is not 1. -/
theorem claim1_group_precondition (rank ws : ℕ) :
    (rank ≠ 0 → mpirion_group rank ws = GroupOutcome.fatal rank) ∧
    (rank = 0 → ws ≠ 1 → mpirion_group rank ws = GroupOutcome.ran true) ∧
    (rank = 0 → ws = 1 → mpirion_group rank ws = GroupOutcome.ran false) := by
  refine ⟨fun h => ?_, fun h0 h1 => ?_, fun h0 h1 => ?_⟩
  · simp [mpirion_group, h]
  · simp [mpirion_group, h0, h1]
  · simp [mpirion_group, h0, h1]

/-- C1 (witness): a non-root rank panics; rank 0 proceeds with a warning at
size 2 and silently at size 1. -/
theorem claim1_witness :
    mpirion_group 5 1 = GroupOutcome.fatal 5 ∧
    mpirion_group 0 2 = GroupOutcome.ran true ∧
    mpirion_group 0 1 = GroupOutcome.ran false :=
  ⟨(claim1_group_precondition 5 1).1 (by decide),
   (claim1_group_precondition 0 2).2.1 rfl (by decide),
   (claim1_group_precondition 0 1).2.2 rfl rfl⟩

/-- C2 (counterexample): the averaged sample is not `total / worker_count`
with integer floor division: a reduced total of `2 ^ 53 + 1` nanoseconds
with one worker yields `2 ^ 53`, because the `u64 -> f64` conversion at
src/lib.rs line 280 rounds to nearest even before dividing. -/
theorem claim2_counterexample :
    averageNanos (2 ^ 53 + 1) 1 ≠ (2 ^ 53 + 1) / 1 := by
  decide

/-- C2 (amended): the sample equals the truncation toward zero of the
binary64 quotient `total as f64 / worker_count as f64`; this coincides with
integer floor division `total / worker_count` whenever the reduced total is
below `2 ^ 53` (for any `1 ≤ worker_count ≤ 2 ^ 31`, covering the `i32`
range), and differs in general (see the counterexample). -/
theorem claim2_average_is_floor_div_below_2_53 (total w : ℕ)
    (htotal : total < 2 ^ 53) (hw1 : 1 ≤ w) (hw2 : w ≤ 2 ^ 31) :
    averageNanos total w = total / w :=
  averageNanos_eq_div total w htotal hw1 hw2

/-- C2 (witness): `averageNanos 10 4 = 2`. -/
theorem claim2_witness : averageNanos 10 4 = 10 / 4 :=
  claim2_average_is_floor_div_below_2_53 10 4 (by decide) (by decide) (by decide)

/-- C3: for every iteration count `n`, the worker measurement loop emits
exactly `n` setup calls, `n` barriers and `n` kernel calls, and the
accumulated duration is exactly the sum of the per-iteration kernel times —
the setup and barrier times `sT`, `bT` do not appear in it, i.e. setup and
barrier are outside the timed window. -/
theorem claim3_loop_counts_and_timing (hasArg : Bool) (sT bT kT : ℕ → ℕ)
    (n : ℕ) :
    (execute_kernel hasArg sT bT kT n).1.countP isSetupOp = n ∧
    (execute_kernel hasArg sT bT kT n).1.countP isKernelOp = n ∧
    (execute_kernel hasArg sT bT kT n).1.countP isBarrierOp = n ∧
    (kernel_loop sT bT kT 0 n 0).2.2 = ∑ i ∈ Finset.range n, kT i := by
  have hfst := kernel_loop_fst sT bT kT n 0 0
  have hdur := kernel_loop_duration sT bT kT n 0 0
  simp only [Nat.zero_add] at hdur
  refine ⟨?_, ?_, ?_, hdur⟩ <;>
    · simp only [execute_kernel, List.countP_cons, List.countP_append, hfst]
      cases hasArg <;>
        simp [iterOps_countP_setup, iterOps_countP_kernel, iterOps_countP_barrier,
          isSetupOp, isKernelOp, isBarrierOp, List.countP_cons]

/-- C5: the coordinator checks `assert_eq!(child_world_size, world_size)`
directly after the spawn: if the reported remote size differs from the
requested one, the run aborts with a trace containing only the spawn — no
merge, broadcast or reduce — and produces no sample; if it matches, a
sample is produced. -/
theorem claim5_spawn_size_check (w remote : ℕ) (hasArg : Bool)
    (ws : List ℕ) :
    (remote ≠ w →
      mpirion_bench w remote hasArg ws = ([MpiOp.spawnChildren w], none)) ∧
    (remote = w → ∃ d, (mpirion_bench w remote hasArg ws).2 = some d) := by
  constructor
  · intro h
    simp [mpirion_bench, h]
  · intro h
    subst h
    simp [mpirion_bench]

/-- C5 (witness): spawning 4 but observing 3 aborts after the spawn;
observing 4 yields a sample. -/
theorem claim5_witness :
    mpirion_bench 4 3 false [] = ([MpiOp.spawnChildren 4], none) ∧
    ∃ d, (mpirion_bench 4 4 false [0, 0, 0, 0]).2 = some d :=
  ⟨(claim5_spawn_size_check 4 3 false []).1 (by decide),
   (claim5_spawn_size_check 4 4 false [0, 0, 0, 0]).2 rfl⟩

/-- C7: the generated `main` dispatches exactly on its command-line tokens:
no tokens is fatal; `--child` without a kernel name is fatal; `--child`
with an unregistered name is fatal naming that token; `--child` with a
registered name runs exactly that kernel's bootstrap function. -/
theorem claim7_main_dispatch (kernels : List String) (k : String)
    (rest : List String) :
    mpirion_main kernels [] = MainOutcome.fatalNoArgs ∧
    mpirion_main kernels ["--child"] = MainOutcome.fatalNoKernelName ∧
    (k ∉ kernels →
      mpirion_main kernels ("--child" :: k :: rest) =
        MainOutcome.fatalUnknownKernel k) ∧
    (k ∈ kernels →
      mpirion_main kernels ("--child" :: k :: rest) =
        MainOutcome.runChild k) := by
  refine ⟨rfl, rfl, fun h => ?_, fun h => ?_⟩
  · have hnone : kernels.find? (fun n => n == k) = none := by
      rw [List.find?_eq_none]
      intro x hx
      simp only [beq_iff_eq]
      intro hxk
      exact h (hxk ▸ hx)
    simp [mpirion_main, dispatch_child, hnone]
  · cases hfind : kernels.find? (fun n => n == k) with
    | none =>
      exfalso
      have := List.find?_eq_none.mp hfind k h
      simp at this
    | some n =>
      have hn : n = k := by
        have := List.find?_some hfind
        simpa using this
      subst hn
      simp [mpirion_main, dispatch_child, hfind]

/-- C7 (witness): with kernels `"a"` and `"b"` registered in one
executable, the dispatch runs exactly the requested kernel `"b"`, and the
three fatal paths trigger on their inputs. -/
theorem claim7_witness :
    mpirion_main ["a", "b"] [] = MainOutcome.fatalNoArgs ∧
    mpirion_main ["a", "b"] ["--child"] = MainOutcome.fatalNoKernelName ∧
    mpirion_main ["a", "b"] ["--child", "c"] = MainOutcome.fatalUnknownKernel "c" ∧
    mpirion_main ["a", "b"] ["--child", "b"] = MainOutcome.runChild "b" :=
  ⟨(claim7_main_dispatch ["a", "b"] "b" []).1,
   (claim7_main_dispatch ["a", "b"] "b" []).2.1,
   (claim7_main_dispatch ["a", "b"] "c" []).2.2.1 (by decide),
   (claim7_main_dispatch ["a", "b"] "b" []).2.2.2 (by decide)⟩

end Mpirion

namespace Mpirion

theorem execute_kernel_fst (hasArg : Bool) (sT bT kT : ℕ → ℕ) (n : ℕ) :
    (execute_kernel hasArg sT bT kT n).1 =
      MpiOp.mergeIntercomm MergeOrder.High :: MpiOp.bcast Comm.merged ::
        ((if hasArg then [MpiOp.bcast Comm.merged] else []) ++
          iterOps n ++ [MpiOp.reduce Comm.merged]) := by
  simp only [execute_kernel]
  rw [kernel_loop_fst]

theorem mpirion_bench_fst (w : ℕ) (hasArg : Bool) (ws : List ℕ) :
    (mpirion_bench w w hasArg ws).1 =
      MpiOp.spawnChildren w :: MpiOp.mergeIntercomm MergeOrder.Low ::
        MpiOp.bcast Comm.merged ::
          ((if hasArg then [MpiOp.bcast Comm.merged] else []) ++
            [MpiOp.reduce Comm.merged]) := by
  simp [mpirion_bench]

theorem mergedCollectives_nil : mergedCollectives [] = [] := rfl

theorem mergedCollectives_append (l1 l2 : List MpiOp) :
    mergedCollectives (l1 ++ l2) =
      mergedCollectives l1 ++ mergedCollectives l2 :=
  List.filter_append _ _

theorem mergedCollectives_cons_bcast (l : List MpiOp) :
    mergedCollectives (MpiOp.bcast Comm.merged :: l) =
      MpiOp.bcast Comm.merged :: mergedCollectives l := rfl

theorem mergedCollectives_cons_reduce (l : List MpiOp) :
    mergedCollectives (MpiOp.reduce Comm.merged :: l) =
      MpiOp.reduce Comm.merged :: mergedCollectives l := rfl

theorem mergedCollectives_cons_merge (o : MergeOrder) (l : List MpiOp) :
    mergedCollectives (MpiOp.mergeIntercomm o :: l) = mergedCollectives l := rfl

theorem mergedCollectives_cons_spawn (c : ℕ) (l : List MpiOp) :
    mergedCollectives (MpiOp.spawnChildren c :: l) = mergedCollectives l := rfl

theorem mergedCollectives_ite (hasArg : Bool) :
    mergedCollectives (if hasArg then [MpiOp.bcast Comm.merged] else []) =
      (if hasArg then [MpiOp.bcast Comm.merged] else []) := by
  cases hasArg <;> rfl

theorem mergedCollectives_worker (hasArg : Bool) (sT bT kT : ℕ → ℕ) (n : ℕ) :
    mergedCollectives (execute_kernel hasArg sT bT kT n).1 =
      MpiOp.bcast Comm.merged ::
        ((if hasArg then [MpiOp.bcast Comm.merged] else []) ++
          [MpiOp.reduce Comm.merged]) := by
  rw [execute_kernel_fst, mergedCollectives_cons_merge,
    mergedCollectives_cons_bcast, mergedCollectives_append,
    mergedCollectives_append, mergedCollectives_ite, iterOps_merged,
    mergedCollectives_cons_reduce, mergedCollectives_nil]
  simp

theorem mergedCollectives_coordinator (w : ℕ) (hasArg : Bool) (ws : List ℕ) :
    mergedCollectives (mpirion_bench w w hasArg ws).1 =
      MpiOp.bcast Comm.merged ::
        ((if hasArg then [MpiOp.bcast Comm.merged] else []) ++
          [MpiOp.reduce Comm.merged]) := by
  rw [mpirion_bench_fst, mergedCollectives_cons_spawn,
    mergedCollectives_cons_merge, mergedCollectives_cons_bcast,
    mergedCollectives_append, mergedCollectives_ite,
    mergedCollectives_cons_reduce, mergedCollectives_nil]

end Mpirion

namespace Mpirion

/-- C4 (counterexample): with a single worker contributing `2 ^ 53 + 1`
nanoseconds (so minimum = maximum = `2 ^ 53 + 1`), the reduction is exact
but the coordinator's divided value is `2 ^ 53`, strictly below the
minimum individual duration — the claimed mean property fails for the `f64`
division the code performs. -/
theorem claim4_counterexample :
    reduceSumU64 (0 :: [2 ^ 53 + 1]) = 2 ^ 53 + 1 ∧
    averageNanos (reduceSumU64 (0 :: [2 ^ 53 + 1])) 1 < 2 ^ 53 + 1 := by
  decide

/-- C4 (amended): the sum-reduction with the coordinator's contribution of 0
yields exactly the sum of the workers' durations (it is a `u64` sum, so this
holds whenever the sum does not overflow; here it is below `2 ^ 53`), and
the divided value — which for totals below `2 ^ 53` equals the integer mean
`sum / worker_count` — lies between any lower bound and any upper bound of
the individual durations, in particular between their minimum and maximum. -/
theorem claim4_reduction_and_mean (ds : List ℕ) (lo hi : ℕ)
    (hne : 1 ≤ ds.length) (hlen : ds.length ≤ 2 ^ 31)
    (hsum : ds.sum < 2 ^ 53)
    (hlo : ∀ d ∈ ds, lo ≤ d) (hhi : ∀ d ∈ ds, d ≤ hi) :
    reduceSumU64 (0 :: ds) = ds.sum ∧
    lo ≤ averageNanos (reduceSumU64 (0 :: ds)) ds.length ∧
    averageNanos (reduceSumU64 (0 :: ds)) ds.length ≤ hi := by
  have h64 : (2:ℕ) ^ 53 < 2 ^ 64 := Nat.pow_lt_pow_right (by omega) (by omega)
  have htot : reduceSumU64 (0 :: ds) = ds.sum := by
    rw [reduceSumU64_eq]
    simp only [List.sum_cons, Nat.zero_add]
    exact Nat.mod_eq_of_lt (lt_trans hsum h64)
  have havg : averageNanos (reduceSumU64 (0 :: ds)) ds.length =
      ds.sum / ds.length := by
    rw [htot]
    exact averageNanos_eq_div _ _ hsum hne hlen
  refine ⟨htot, ?_, ?_⟩
  · rw [havg, Nat.le_div_iff_mul_le (by omega : 0 < ds.length)]
    have h1 := List.card_nsmul_le_sum ds lo hlo
    rw [smul_eq_mul] at h1
    calc lo * ds.length = ds.length * lo := Nat.mul_comm _ _
      _ ≤ ds.sum := h1
  · rw [havg]
    have h1 := List.sum_le_card_nsmul ds hi hhi
    rw [smul_eq_mul] at h1
    calc ds.sum / ds.length ≤ ds.length * hi / ds.length :=
          Nat.div_le_div_right h1
      _ = hi := Nat.mul_div_cancel_left hi (by omega : 0 < ds.length)

/-- C4 (witness): two workers contributing 3 and 5 reduce to 8 and average
to 4, between the minimum 3 and the maximum 5. -/
theorem claim4_witness :
    reduceSumU64 (0 :: [3, 5]) = [3, 5].sum ∧
    3 ≤ averageNanos (reduceSumU64 (0 :: [3, 5])) 2 ∧
    averageNanos (reduceSumU64 (0 :: [3, 5])) 2 ≤ 5 :=
  claim4_reduction_and_mean [3, 5] 3 5 (by decide) (by decide) (by decide)
    (by decide) (by decide)

theorem execute_kernel_all_worker (hasArg : Bool) (sT bT kT : ℕ → ℕ)
    (n : ℕ) : (execute_kernel hasArg sT bT kT n).1.all workerOpOk = true := by
  rw [execute_kernel_fst]
  cases hasArg <;>
    simp [List.all_cons, List.all_append, iterOps_all_worker, workerOpOk]

/-- C6: the two merge call sites use opposite, fixed orders — the
coordinator merges with `MergeOrder::Low` (src/lib.rs line 270) and the
worker with `MergeOrder::High` (line 176) and never the other way round —
so under `MPI_Intercomm_merge` rank assignment the spawning coordinator
(local rank 0, opposite group of size `w`) gets merged rank 0 and worker
`i < w` (opposite group of size 1) gets merged rank `1 + i`, i.e. the
workers occupy ranks `1 .. w`. -/
theorem claim6_merge_order (w : ℕ) (hasArg : Bool) (ws : List ℕ)
    (sT bT kT : ℕ → ℕ) (n i : ℕ) (hi : i < w) :
    MpiOp.mergeIntercomm MergeOrder.Low ∈ (mpirion_bench w w hasArg ws).1 ∧
    MpiOp.mergeIntercomm MergeOrder.High ∉ (mpirion_bench w w hasArg ws).1 ∧
    MpiOp.mergeIntercomm MergeOrder.High ∈
      (execute_kernel hasArg sT bT kT n).1 ∧
    MpiOp.mergeIntercomm MergeOrder.Low ∉
      (execute_kernel hasArg sT bT kT n).1 ∧
    mergeRank MergeOrder.Low 0 w = 0 ∧
    mergeRank MergeOrder.High i 1 = 1 + i ∧
    1 ≤ mergeRank MergeOrder.High i 1 ∧ mergeRank MergeOrder.High i 1 ≤ w := by
  refine ⟨?_, ?_, ?_, ?_, rfl, rfl, by simp [mergeRank], ?_⟩
  · rw [mpirion_bench_fst]
    simp
  · rw [mpirion_bench_fst]
    cases hasArg <;> simp
  · rw [execute_kernel_fst]
    simp
  · intro hmem
    have hall := execute_kernel_all_worker hasArg sT bT kT n
    rw [List.all_eq_true] at hall
    have hbad := hall _ hmem
    simp [workerOpOk] at hbad
  · simp only [mergeRank]
    omega

/-- C6 (witness): instantiated at `w = 4`, `i = 2`. -/
theorem claim6_witness :
    MpiOp.mergeIntercomm MergeOrder.Low ∈ (mpirion_bench 4 4 false []).1 ∧
    MpiOp.mergeIntercomm MergeOrder.High ∉ (mpirion_bench 4 4 false []).1 ∧
    MpiOp.mergeIntercomm MergeOrder.High ∈
      (execute_kernel false (fun _ => 0) (fun _ => 0) (fun _ => 0) 3).1 ∧
    MpiOp.mergeIntercomm MergeOrder.Low ∉
      (execute_kernel false (fun _ => 0) (fun _ => 0) (fun _ => 0) 3).1 ∧
    mergeRank MergeOrder.Low 0 4 = 0 ∧
    mergeRank MergeOrder.High 2 1 = 1 + 2 ∧
    1 ≤ mergeRank MergeOrder.High 2 1 ∧ mergeRank MergeOrder.High 2 1 ≤ 4 :=
  claim6_merge_order 4 false [] (fun _ => 0) (fun _ => 0) (fun _ => 0) 3 2
    (by decide)

/-- C8: on the merged communicator, the coordinator (`mpirion_bench!`) and a
worker (`mpirion_kernel!`) perform exactly the same sequence of collectives
in the same order: one broadcast of the iteration count, then one broadcast
of the argument if and only if an argument is supplied/declared, then one
sum-reduction — and nothing else (the worker's barriers are on its own
world communicator and are filtered out here). -/
theorem claim8_collective_order (w : ℕ) (hasArg : Bool) (ws : List ℕ)
    (sT bT kT : ℕ → ℕ) (n : ℕ) :
    mergedCollectives (mpirion_bench w w hasArg ws).1 =
      mergedCollectives (execute_kernel hasArg sT bT kT n).1 ∧
    mergedCollectives (mpirion_bench w w hasArg ws).1 =
      MpiOp.bcast Comm.merged ::
        ((if hasArg then [MpiOp.bcast Comm.merged] else []) ++
          [MpiOp.reduce Comm.merged]) := by
  rw [mergedCollectives_coordinator, mergedCollectives_worker]
  exact ⟨rfl, rfl⟩

/-- C9: every operation a worker performs is either a merged-communicator
control operation (the `MergeOrder::High` merge, broadcasts, the reduction)
or a world-communicator setup, barrier or kernel call — setup, barrier and
kernel are always invoked on the spawned children's own world communicator,
never on the merged one — and the coordinator's trace contains no setup,
barrier or kernel call at all. -/
theorem claim9_communicator_separation (hasArg : Bool) (sT bT kT : ℕ → ℕ)
    (n w remote : ℕ) (ws : List ℕ) :
    (execute_kernel hasArg sT bT kT n).1.all workerOpOk = true ∧
    (mpirion_bench w remote hasArg ws).1.all
      (fun op => !isComputeOp op) = true := by
  refine ⟨execute_kernel_all_worker hasArg sT bT kT n, ?_⟩
  · by_cases h : remote = w
    · subst h
      rw [mpirion_bench_fst]
      cases hasArg <;> simp [isComputeOp]
    · simp [mpirion_bench, h, isComputeOp]

/-- C10: with 0 requested iterations a worker performs no setup call, no
barrier and no kernel call, contributes exactly 0 nanoseconds, and still
performs the final merged reduction; the coordinator's sample for any
worker count (all workers contributing 0) is `some 0`; and the two sides
still agree on the merged-communicator collective sequence, so the
protocol completes. -/
theorem claim10_zero_iterations (hasArg : Bool) (sT bT kT : ℕ → ℕ) (w : ℕ) :
    (execute_kernel hasArg sT bT kT 0).1.countP isSetupOp = 0 ∧
    (execute_kernel hasArg sT bT kT 0).1.countP isBarrierOp = 0 ∧
    (execute_kernel hasArg sT bT kT 0).1.countP isKernelOp = 0 ∧
    (execute_kernel hasArg sT bT kT 0).2 = 0 ∧
    MpiOp.reduce Comm.merged ∈ (execute_kernel hasArg sT bT kT 0).1 ∧
    (mpirion_bench w w hasArg (List.replicate w 0)).2 = some 0 ∧
    mergedCollectives (execute_kernel hasArg sT bT kT 0).1 =
      mergedCollectives (mpirion_bench w w hasArg (List.replicate w 0)).1 := by
  have hzero : reduceSumU64 (0 :: List.replicate w 0) = 0 := by
    rw [reduceSumU64_eq]
    simp [List.sum_replicate]
  refine ⟨?_, ?_, ?_, rfl, ?_, ?_, ?_⟩
  · rw [execute_kernel_fst]
    cases hasArg <;> rfl
  · rw [execute_kernel_fst]
    cases hasArg <;> rfl
  · rw [execute_kernel_fst]
    cases hasArg <;> rfl
  · rw [execute_kernel_fst]
    simp
  · simp [mpirion_bench, hzero, averageNanos_zero]
  · rw [mergedCollectives_worker, mergedCollectives_coordinator]

end Mpirion
